import Mathlib

/-!
Verification of the event-scheduling core of the songbird repository
(`src/events/mod.rs`), shallowly embedded in Lean 4.

The `Event` descriptor enumeration, `Event::is_global_only`, and the two
`From` conversions are translated directly from `src/events/mod.rs`.
The payload enumerations (`TrackEvent`, `CoreEvent`) and the registry,
entry and dispatch machinery live in submodules (`track.rs`, `core.rs`,
`data.rs`, `store.rs`) that are not part of the given sources; those are
modelled from the specification, as indicated on each definition.

Durations are modelled as natural numbers (a count of time units);
Rust `Duration` is a non-negative quantity, and the scheduling arithmetic
only ever subtracts elapsed time from a remaining wait, which is
saturating-at-zero here exactly as the "remaining wait becomes ≤ 0"
rule demands.
-/

namespace Songbird

/-- Modelled from the spec: the discrete track-state transition kinds of
`TrackEvent` (declared in `src/events/track.rs`, which is absent from the
given sources). The spec lists the playback-state signals
playing / paused / stopped / looped / ended / errored. -/
inductive TrackEvent where
  | Play
  | Pause
  | Stop
  | Loop
  | End
  | Error
deriving DecidableEq, Repr

/-- Modelled from the spec: the transport/session-level occurrence kinds of
`CoreEvent` (declared in `src/events/core.rs`, which is absent from the
given sources). The spec lists connection established, speaking-state
changes, and raw packet arrival as the opaque payload kinds. -/
inductive CoreEvent where
  | ConnectionEstablished
  | SpeakingStateChange
  | RawPacketArrival
deriving DecidableEq, Repr

/-- Translated from `Event` in `src/events/mod.rs` (lines 90–129): classes of
event which may occur, triggering a handler at the local (track-specific) or
global level. `Duration` is embedded as `Nat`. -/
inductive Event where
  | Periodic (period : Nat) (phase : Option Nat)
  | Delayed (delay : Nat)
  | Track (evt : TrackEvent)
  | Core (evt : CoreEvent)
  | Cancel
deriving DecidableEq, Repr

namespace Event

/-- Translated from `Event::is_global_only` in `src/events/mod.rs`
(lines 131–135): `matches!(self, Self::Core(_))`. -/
def is_global_only : Event → Bool
  | .Core _ => true
  | _ => false

/-- Translated from `impl From<TrackEvent> for Event` in `src/events/mod.rs`
(lines 137–141). -/
def fromTrackEvent (evt : TrackEvent) : Event :=
  Event.Track evt

/-- Translated from `impl From<CoreEvent> for Event` in `src/events/mod.rs`
(lines 143–147). -/
def fromCoreEvent (evt : CoreEvent) : Event :=
  Event.Core evt

end Event

/-- Modelled from the spec: the scope tag of an Event Registry
(`src/events/store.rs` is absent from the given sources) — `Global` for the
driver-owned registry, `Local` for a registry owned by one track. -/
inductive Scope where
  | globalScope
  | localScope
deriving DecidableEq, Repr

/-- Decides whether a scope is the local (track) scope. -/
def Scope.isLocal : Scope → Bool
  | .localScope => true
  | .globalScope => false

/-- Modelled from the spec: the read-only Firing Context handed to a handler
(`src/events/context.rs` is absent from the given sources). `Timed` carries
the batch of track references relevant to this tick, `TrackTransition` the
matching (track reference, transition kind) pairs, `Core` the opaque payload
kind. Track references are embedded as numeric identifiers. -/
inductive FiringContext where
  | timed (tracks : List Nat)
  | trackTransition (pairs : List (Nat × TrackEvent))
  | core (kind : CoreEvent)
deriving DecidableEq, Repr

/-- Modelled from the spec: the observable outcome of one handler invocation.
`act` returns an optional replacement descriptor; a handler that raises
instead of returning is modelled by the `failure` outcome (fallible code is
embedded with an explicit failure constructor). -/
inductive HandlerOutcome where
  | ok (override : Option Event)
  | failure
deriving DecidableEq, Repr

/-- Modelled from the spec: a Handler Capability is a pure function from the
firing context to an optional replacement descriptor (spec §4.1 and §9);
handler-private state lives in the handler's own closure, not here. -/
def Handler : Type := FiringContext → HandlerOutcome

/-- Handler that always returns `None` (no change to its own schedule). -/
def handlerNone : Handler := fun _ => .ok none

/-- Handler that always returns `Some(Cancel)`. -/
def handlerCancel : Handler := fun _ => .ok (some .Cancel)

/-- Handler that always fails (models a panic during `act`). -/
def handlerFail : Handler := fun _ => .failure

/-- Handler that always returns `Some(ev)`, overriding its descriptor. -/
def handlerTo (ev : Event) : Handler := fun _ => .ok (some ev)

/-- Modelled from the spec: an Event Entry (`EventData`, declared in
`src/events/data.rs`, absent from the given sources) binds one descriptor to
one handler plus private scheduling state: the remaining wait time for
time-based descriptors, and a fire count. -/
structure EventData where
  id : Nat
  event : Event
  handler : Handler
  remaining : Nat
  fireCount : Nat

/-- Observable scheduling state of an entry: everything except the handler
function itself. -/
def EventData.obs (e : EventData) : Nat × Event × Nat × Nat :=
  (e.id, e.event, e.remaining, e.fireCount)

/-- Initial remaining wait of a freshly registered descriptor: `phase` if
present else `period` for `Periodic`, the delay for `Delayed`, and zero for
the untimed kinds (spec §3). -/
def initRemaining : Event → Nat
  | .Periodic p phase => phase.getD p
  | .Delayed d => d
  | _ => 0

/-- Entry created by a fresh registration of descriptor `ev` with handler `h`
under identifier `i`. -/
def freshEntry (ev : Event) (h : Handler) (i : Nat) : EventData :=
  { id := i, event := ev, handler := h, remaining := initRemaining ev, fireCount := 0 }

/-- Modelled from the spec: the external-state snapshot handed to the
Registry on each tick (spec §4.3) — the elapsed duration since the previous
tick, the set of observed track transitions `(track reference, kind)`, and
the core-payload occurrences of this tick. -/
structure Snapshot where
  elapsed : Nat
  trackOccurrences : List (Nat × TrackEvent)
  coreOccurrences : List CoreEvent

/-- Modelled from the spec: the Event Registry (`EventStore`, declared in
`src/events/store.rs`, absent from the given sources) — a scope tag, the next
free entry identifier, and the entries in insertion order. -/
structure Registry where
  scope : Scope
  nextId : Nat
  entries : List EventData

/-- Registration (spec §6): always succeeds, appends a fresh entry in
insertion order and returns its identifier. -/
def Registry.register (reg : Registry) (ev : Event) (h : Handler) :
    Registry × Nat :=
  ({ reg with nextId := reg.nextId + 1,
              entries := reg.entries ++ [freshEntry ev h reg.nextId] },
   reg.nextId)

/-- Explicit external removal (spec §6): drops the entry with the given
identifier and reports whether one existed. -/
def Registry.cancel (reg : Registry) (x : Nat) : Registry × Bool :=
  ({ reg with entries := reg.entries.filter (fun e => !(e.id == x)) },
   reg.entries.any (fun e => e.id == x))

/-- Time advance (spec §4.3 step 1): subtract the elapsed duration from the
remaining wait of time-based entries; untimed entries are untouched. The
subtraction saturates at zero, capturing "remaining wait becomes ≤ 0". -/
def advanceTime (elapsed : Nat) (e : EventData) : EventData :=
  match e.event with
  | .Periodic _ _ => { e with remaining := e.remaining - elapsed }
  | .Delayed _ => { e with remaining := e.remaining - elapsed }
  | _ => e

/-- Fireable test (spec §4.3 steps 1–3), evaluated after time advance.
Descriptors that are valid only globally (`Event::is_global_only`, i.e.
`Core`) are permanently excluded on a local registry. Time-based entries are
fireable once their remaining wait has reached zero; `Track`/`Core` entries
are fireable when a matching occurrence is in the snapshot; a bare `Cancel`
descriptor never fires. -/
def fireable (scope : Scope) (snap : Snapshot) (e : EventData) : Bool :=
  if e.event.is_global_only && scope.isLocal then false
  else
    match e.event with
    | .Periodic _ _ => e.remaining == 0
    | .Delayed _ => e.remaining == 0
    | .Track k => snap.trackOccurrences.any (fun o => o.2 == k)
    | .Core c => snap.coreOccurrences.any (fun o => o == c)
    | .Cancel => false

/-- Firing Context construction (spec §4.3 step 3): time-based fires see the
batch of tracks relevant to this tick, `Track` fires see the matching
transition pairs, `Core` fires see the payload kind. -/
def mkCtx (snap : Snapshot) (e : EventData) : FiringContext :=
  match e.event with
  | .Track k => .trackTransition (snap.trackOccurrences.filter (fun o => o.2 == k))
  | .Core c => .core c
  | _ => .timed (snap.trackOccurrences.map Prod.fst)

/-- Lifecycle application (spec §4.2): `Some(Cancel)` always removes the
entry; `Some(other)` re-arms it as if freshly registered with `other`
(same identifier and handler); `None` applies the kind's default
persistence — `Periodic` re-arms with wait = period (the original phase is
forgotten), `Delayed` is removed, `Track`/`Core` stay armed unchanged. -/
def applyOverride (e : EventData) : Option Event → Option EventData
  | some .Cancel => none
  | some other => some (freshEntry other e.handler e.id)
  | none =>
    match e.event with
    | .Periodic p _ => some { e with remaining := p }
    | .Delayed _ => none
    | _ => some e

/-- Increment of an entry's fire count, recorded when the entry fires. -/
def bump (e : EventData) : EventData :=
  { e with fireCount := e.fireCount + 1 }

/-- Processing of a single entry for one tick: advance time, test
fireability, dispatch the handler at most once, and apply the lifecycle
rules to its outcome (a failing handler is treated as if it returned `None`).
Returns the surviving entry (if any), whether the entry fired, and whether
its handler failed. -/
def processEntry (scope : Scope) (snap : Snapshot) (e : EventData) :
    Option EventData × Bool × Bool :=
  let ea := advanceTime snap.elapsed e
  if fireable scope snap ea then
    match (bump ea).handler (mkCtx snap (bump ea)) with
    | .ok ov => (applyOverride (bump ea) ov, true, false)
    | .failure => (applyOverride (bump ea) none, true, true)
  else
    (some ea, false, false)

/-- One tick of a registry (spec §4.3): every entry is processed
independently, surviving entries keep their insertion order. -/
def Registry.tick (reg : Registry) (snap : Snapshot) : Registry :=
  { reg with entries := reg.entries.filterMap (fun e => (processEntry reg.scope snap e).1) }

/-- Identifiers of the entries that fire during one tick, in dispatch
order. -/
def Registry.firedIds (reg : Registry) (snap : Snapshot) : List Nat :=
  (reg.entries.filter (fun e => (processEntry reg.scope snap e).2.1)).map (fun e => e.id)

/-- Identifiers of the entries whose handler failed during one tick: the
faults reported to the owning scope's caller. -/
def Registry.faultIds (reg : Registry) (snap : Snapshot) : List Nat :=
  (reg.entries.filter (fun e => (processEntry reg.scope snap e).2.2)).map (fun e => e.id)

/-- Look up the entry with a given identifier. -/
def Registry.findEntry (reg : Registry) (x : Nat) : Option EventData :=
  reg.entries.find? (fun e => e.id == x)

/-- Run a registry through a sequence of ticks. -/
def Registry.runTicks (reg : Registry) : List Snapshot → Registry
  | [] => reg
  | s :: ss => (reg.tick s).runTicks ss

/-- All identifiers fired across a sequence of ticks (with repetition, in
tick order). -/
def Registry.firedLog (reg : Registry) : List Snapshot → List Nat
  | [] => []
  | s :: ss => reg.firedIds s ++ (reg.tick s).firedLog ss

/-- Cumulative elapsed times at which entry `x` fires, starting from
accumulated time `acc`, over a sequence of ticks. -/
def fireInstantsFrom (reg : Registry) (x acc : Nat) : List Snapshot → List Nat
  | [] => []
  | s :: ss =>
    if x ∈ reg.firedIds s then
      (acc + s.elapsed) :: fireInstantsFrom (reg.tick s) x (acc + s.elapsed) ss
    else
      fireInstantsFrom (reg.tick s) x (acc + s.elapsed) ss

/-- Cumulative elapsed times at which entry `x` fires, from time zero. -/
def Registry.fireInstants (reg : Registry) (x : Nat) (snaps : List Snapshot) :
    List Nat :=
  fireInstantsFrom reg x 0 snaps

/-- Tick numbers (starting from `t`) at which entry `x` fires. -/
def fireTicksFrom (reg : Registry) (x t : Nat) : List Snapshot → List Nat
  | [] => []
  | s :: ss =>
    if x ∈ reg.firedIds s then
      t :: fireTicksFrom (reg.tick s) x (t + 1) ss
    else
      fireTicksFrom (reg.tick s) x (t + 1) ss

/-- Tick numbers (1-based) at which entry `x` fires. -/
def Registry.fireTicks (reg : Registry) (x : Nat) (snaps : List Snapshot) :
    List Nat :=
  fireTicksFrom reg x 1 snaps

/-- Single-entry step: the evolution of one (possibly already removed) entry
across one tick, with its fired flag. -/
def stepEntry (scope : Scope) (snap : Snapshot) :
    Option EventData → Option EventData × Bool
  | none => (none, false)
  | some e => ((processEntry scope snap e).1, (processEntry scope snap e).2.1)

/-- Single-entry trace: cumulative elapsed times at which the entry fires. -/
def entryInstants (scope : Scope) (oe : Option EventData) (acc : Nat) :
    List Snapshot → List Nat
  | [] => []
  | s :: ss =>
    if (stepEntry scope s oe).2 then
      (acc + s.elapsed) :: entryInstants scope (stepEntry scope s oe).1 (acc + s.elapsed) ss
    else
      entryInstants scope (stepEntry scope s oe).1 (acc + s.elapsed) ss

/-- Single-entry trace: tick numbers (starting from `t`) at which the entry
fires. -/
def entryTicks (scope : Scope) (oe : Option EventData) (t : Nat) :
    List Snapshot → List Nat
  | [] => []
  | s :: ss =>
    if (stepEntry scope s oe).2 then
      t :: entryTicks scope (stepEntry scope s oe).1 (t + 1) ss
    else
      entryTicks scope (stepEntry scope s oe).1 (t + 1) ss

/-- Single-entry state after a sequence of ticks. -/
def entryAfter (scope : Scope) (oe : Option EventData) :
    List Snapshot → Option EventData
  | [] => oe
  | s :: ss => entryAfter scope (stepEntry scope s oe).1 ss

/-- Sum of the elapsed durations of the first `i` snapshots: the cumulative
elapsed time at the end of tick `i`. -/
def partialElapsed : List Snapshot → Nat → Nat
  | _, 0 => 0
  | [], _ + 1 => 0
  | s :: ss, i + 1 => s.elapsed + partialElapsed ss i

/-- Replace the handler of every entry with identifier `x`. -/
def setHandlerAt (reg : Registry) (x : Nat) (h : Handler) : Registry :=
  { reg with entries :=
      reg.entries.map (fun e => if e.id == x then { e with handler := h } else e) }

/-- Snapshot carrying only elapsed time (a pure timer tick). -/
def timedSnap (d : Nat) : Snapshot :=
  { elapsed := d, trackOccurrences := [], coreOccurrences := [] }

/-- Fixture: an empty local (track-scope) registry. -/
def regEmptyLocal : Registry :=
  { scope := Scope.localScope, nextId := 0, entries := [] }

/-- Fixture: a global registry holding one `Periodic(2, phase 1)` entry whose
handler always returns `None`. -/
def regPeriodicFx : Registry :=
  { scope := Scope.globalScope, nextId := 1,
    entries := [freshEntry (Event.Periodic 2 (some 1)) handlerNone 0] }

/-- Fixture: tick sizes 1, 2, 2 — cumulative times 1, 3, 5. -/
def snapsPeriodicFx : List Snapshot := [timedSnap 1, timedSnap 2, timedSnap 2]

/-- Fixture: a global registry holding one `Delayed(5)` entry whose handler
always returns `None`. -/
def regDelayedFx : Registry :=
  { scope := Scope.globalScope, nextId := 1,
    entries := [freshEntry (Event.Delayed 5) handlerNone 0] }

/-- Fixture: tick sizes 3, 3, 4 — cumulative times 3, 6, 10. -/
def snapsDelayedFx : List Snapshot := [timedSnap 3, timedSnap 3, timedSnap 4]

/-- Fixture: a global registry holding one `Track(End)` entry whose handler
always returns `Some(Cancel)`. -/
def regCancelFx : Registry :=
  { scope := Scope.globalScope, nextId := 1,
    entries := [freshEntry (Event.Track TrackEvent.End) handlerCancel 0] }

/-- Fixture: a snapshot in which track 7 transitions into `End`. -/
def snapTrackEnd : Snapshot :=
  { elapsed := 20, trackOccurrences := [(7, TrackEvent.End)], coreOccurrences := [] }

/-- Fixture: a `Track(End)` entry whose handler overrides it to
`Delayed(4)`. -/
def entryTrackToDelayed : EventData :=
  freshEntry (Event.Track TrackEvent.End) (handlerTo (Event.Delayed 4)) 0

/-- Fixture: a global registry with a failing `Periodic(1)` entry followed by
a well-behaved `Delayed(3)` entry. -/
def regFailFx : Registry :=
  { scope := Scope.globalScope, nextId := 2,
    entries := [freshEntry (Event.Periodic 1 none) handlerFail 0,
                freshEntry (Event.Delayed 3) handlerNone 1] }

/-- Time advance never changes an entry's identifier. -/
theorem advanceTime_id (d : Nat) (e : EventData) : (advanceTime d e).id = e.id := by
  rcases e with ⟨i, ev, h, r, fc⟩
  cases ev <;> rfl

/-- Time advance never changes an entry's descriptor. -/
theorem advanceTime_event (d : Nat) (e : EventData) :
    (advanceTime d e).event = e.event := by
  rcases e with ⟨i, ev, h, r, fc⟩
  cases ev <;> rfl

/-- Time advance never changes an entry's handler. -/
theorem advanceTime_handler (d : Nat) (e : EventData) :
    (advanceTime d e).handler = e.handler := by
  rcases e with ⟨i, ev, h, r, fc⟩
  cases ev <;> rfl

/-- Time advance never changes an entry's fire count. -/
theorem advanceTime_fireCount (d : Nat) (e : EventData) :
    (advanceTime d e).fireCount = e.fireCount := by
  rcases e with ⟨i, ev, h, r, fc⟩
  cases ev <;> rfl

/-- On a `Periodic` entry, time advance subtracts the elapsed duration
(saturating at zero) from the remaining wait. -/
theorem advanceTime_remaining_periodic (d : Nat) (e : EventData) (p : Nat)
    (ph : Option Nat) (hev : e.event = Event.Periodic p ph) :
    (advanceTime d e).remaining = e.remaining - d := by
  rcases e with ⟨i, ev, h, r, fc⟩
  cases ev <;> simp_all [advanceTime]

/-- On a `Delayed` entry, time advance subtracts the elapsed duration
(saturating at zero) from the remaining wait. -/
theorem advanceTime_remaining_delayed (d : Nat) (e : EventData) (d0 : Nat)
    (hev : e.event = Event.Delayed d0) :
    (advanceTime d e).remaining = e.remaining - d := by
  rcases e with ⟨i, ev, h, r, fc⟩
  cases ev <;> simp_all [advanceTime]

/-- An entry whose descriptor is untimed is untouched by time advance. -/
theorem advanceTime_untimed (d : Nat) (e : EventData)
    (h1 : ∀ p ph, e.event ≠ Event.Periodic p ph)
    (h2 : ∀ d0, e.event ≠ Event.Delayed d0) :
    advanceTime d e = e := by
  rcases e with ⟨i, ev, h, r, fc⟩
  cases ev <;> simp_all [advanceTime]

/-- The firing context depends only on the snapshot and the descriptor. -/
theorem mkCtx_eq_of_event (snap : Snapshot) (e e2 : EventData)
    (hev : e.event = e2.event) : mkCtx snap e = mkCtx snap e2 := by
  unfold mkCtx
  rw [hev]

/-- Fireability depends only on the descriptor and the remaining wait. -/
theorem fireable_eq_of (scope : Scope) (snap : Snapshot) (e e2 : EventData)
    (hev : e.event = e2.event) (hrem : e.remaining = e2.remaining) :
    fireable scope snap e = fireable scope snap e2 := by
  unfold fireable
  rw [hev, hrem]

/-- Bumping the fire count changes nothing else. -/
theorem bump_fields (e : EventData) :
    (bump e).id = e.id ∧ (bump e).event = e.event ∧
    (bump e).handler = e.handler ∧ (bump e).remaining = e.remaining ∧
    (bump e).fireCount = e.fireCount + 1 :=
  ⟨rfl, rfl, rfl, rfl, rfl⟩

/-- Equation for `processEntry` on a non-fireable entry: the entry survives
with only its time advanced, does not fire, and reports no fault. -/
theorem processEntry_not_fireable (scope : Scope) (snap : Snapshot)
    (e : EventData)
    (h : fireable scope snap (advanceTime snap.elapsed e) = false) :
    processEntry scope snap e = (some (advanceTime snap.elapsed e), false, false) := by
  unfold processEntry
  simp [h]

/-- Equation for `processEntry` on a fireable entry whose handler returns an
override value. -/
theorem processEntry_fire_ok (scope : Scope) (snap : Snapshot) (e : EventData)
    (ov : Option Event)
    (h : fireable scope snap (advanceTime snap.elapsed e) = true)
    (hout : e.handler (mkCtx snap e) = .ok ov) :
    processEntry scope snap e =
      (applyOverride (bump (advanceTime snap.elapsed e)) ov, true, false) := by
  have hh : (bump (advanceTime snap.elapsed e)).handler = e.handler := by
    rw [(bump_fields _).2.2.1, advanceTime_handler]
  have hctx : mkCtx snap (bump (advanceTime snap.elapsed e)) = mkCtx snap e :=
    mkCtx_eq_of_event _ _ _ (by rw [(bump_fields _).2.1, advanceTime_event])
  unfold processEntry
  simp [h, hh, hctx, hout]

/-- Equation for `processEntry` on a fireable entry whose handler fails: the
lifecycle is applied as for a `None` return and the fault is recorded. -/
theorem processEntry_fire_failure (scope : Scope) (snap : Snapshot)
    (e : EventData)
    (h : fireable scope snap (advanceTime snap.elapsed e) = true)
    (hout : e.handler (mkCtx snap e) = .failure) :
    processEntry scope snap e =
      (applyOverride (bump (advanceTime snap.elapsed e)) none, true, true) := by
  have hh : (bump (advanceTime snap.elapsed e)).handler = e.handler := by
    rw [(bump_fields _).2.2.1, advanceTime_handler]
  have hctx : mkCtx snap (bump (advanceTime snap.elapsed e)) = mkCtx snap e :=
    mkCtx_eq_of_event _ _ _ (by rw [(bump_fields _).2.1, advanceTime_event])
  unfold processEntry
  simp [h, hh, hctx, hout]

/-- Lifecycle application never changes the identifier of a surviving
entry. -/
theorem applyOverride_id (eb e2 : EventData) (ov : Option Event)
    (h : applyOverride eb ov = some e2) : e2.id = eb.id := by
  rcases ov with _ | ev
  · unfold applyOverride at h
    cases heb : eb.event <;> rw [heb] at h <;> simp at h <;> subst h <;> rfl
  · cases ev <;> unfold applyOverride at h <;> simp at h <;> subst h <;> rfl

/-- Processing never changes the identifier of a surviving entry. -/
theorem processEntry_id (scope : Scope) (snap : Snapshot) (e e2 : EventData)
    (hpe : (processEntry scope snap e).1 = some e2) : e2.id = e.id := by
  by_cases hf : fireable scope snap (advanceTime snap.elapsed e) = true
  · cases hout : e.handler (mkCtx snap e) with
    | ok ov =>
      rw [processEntry_fire_ok scope snap e ov hf hout] at hpe
      dsimp only at hpe
      rw [applyOverride_id _ _ _ hpe, (bump_fields _).1, advanceTime_id]
    | failure =>
      rw [processEntry_fire_failure scope snap e hf hout] at hpe
      dsimp only at hpe
      rw [applyOverride_id _ _ _ hpe, (bump_fields _).1, advanceTime_id]
  · rw [processEntry_not_fireable scope snap e (by simpa using hf)] at hpe
    dsimp only at hpe
    cases hpe
    exact advanceTime_id _ _

/-- The surviving entry of a single-entry step, as an `Option.bind`. -/
theorem stepEntry_fst (scope : Scope) (snap : Snapshot) (oe : Option EventData) :
    (stepEntry scope snap oe).1 = oe.bind (fun e => (processEntry scope snap e).1) := by
  cases oe <;> rfl

/-- Identifiers of entries surviving a tick all come from the original
list. -/
theorem mem_filterMap_process_id (scope : Scope) (snap : Snapshot)
    (l : List EventData) (y : EventData)
    (hy : y ∈ l.filterMap (fun e => (processEntry scope snap e).1)) :
    y.id ∈ l.map (fun e => e.id) := by
  rcases List.mem_filterMap.1 hy with ⟨e, he, hpe⟩
  exact List.mem_map.2 ⟨e, he, (processEntry_id scope snap e y hpe).symm⟩

/-- Identifier-level inclusion for the entries surviving a tick. -/
theorem map_id_filterMap_subset (scope : Scope) (snap : Snapshot)
    (l : List EventData) (z : Nat)
    (hz : z ∈ (l.filterMap (fun e => (processEntry scope snap e).1)).map (fun e => e.id)) :
    z ∈ l.map (fun e => e.id) := by
  rcases List.mem_map.1 hz with ⟨y, hy, rfl⟩
  exact mem_filterMap_process_id scope snap l y hy

/-- A tick preserves distinctness of entry identifiers. -/
theorem nodup_filterMap_process (scope : Scope) (snap : Snapshot) :
    ∀ l : List EventData, (l.map (fun e => e.id)).Nodup →
      ((l.filterMap (fun e => (processEntry scope snap e).1)).map (fun e => e.id)).Nodup := by
  intro l
  induction l with
  | nil => intro _; simp
  | cons a l ih =>
    intro hN
    rw [List.map_cons, List.nodup_cons] at hN
    simp only [List.filterMap_cons]
    cases hpa : (processEntry scope snap a).1 with
    | none => exact ih hN.2
    | some a2 =>
      rw [List.map_cons, List.nodup_cons]
      constructor
      · intro hmem
        have h2 := map_id_filterMap_subset scope snap l _ hmem
        rw [processEntry_id scope snap a a2 hpa] at h2
        exact hN.1 h2
      · exact ih hN.2

/-- Looking up an identifier after a tick is the same as looking it up first
and then processing the found entry (identifiers are distinct). -/
theorem find?_filterMap_process (scope : Scope) (snap : Snapshot) (x : Nat) :
    ∀ l : List EventData, (l.map (fun e => e.id)).Nodup →
      (l.filterMap (fun e => (processEntry scope snap e).1)).find? (fun e => e.id == x)
        = (l.find? (fun e => e.id == x)).bind (fun e => (processEntry scope snap e).1) := by
  intro l
  induction l with
  | nil => intro _; rfl
  | cons a l ih =>
    intro hN
    rw [List.map_cons, List.nodup_cons] at hN
    simp only [List.filterMap_cons]
    by_cases hax : (a.id == x) = true
    · rw [@List.find?_cons_of_pos _ (fun e => e.id == x) a l hax, Option.some_bind]
      cases hpa : (processEntry scope snap a).1 with
      | some a2 =>
        have h2 : (a2.id == x) = true := by
          rw [processEntry_id scope snap a a2 hpa]; exact hax
        rw [@List.find?_cons_of_pos _ (fun e => e.id == x) a2 _ h2]
      | none =>
        rw [List.find?_eq_none]
        intro y hy hbeq
        have h2 := mem_filterMap_process_id scope snap l y hy
        have hyx : y.id = x := by simpa using hbeq
        have haxx : a.id = x := by simpa using hax
        rw [hyx, ← haxx] at h2
        exact hN.1 h2
    · rw [@List.find?_cons_of_neg _ (fun e => e.id == x) a l hax]
      cases hpa : (processEntry scope snap a).1 with
      | some a2 =>
        have h2 : ¬((a2.id == x) = true) := by
          rw [processEntry_id scope snap a a2 hpa]; exact hax
        rw [@List.find?_cons_of_neg _ (fun e => e.id == x) a2 _ h2]
        exact ih hN.2
      | none => exact ih hN.2

/-- A tick does not change the scope of a registry. -/
theorem tick_scope (reg : Registry) (snap : Snapshot) :
    (reg.tick snap).scope = reg.scope := rfl

/-- A tick preserves distinctness of a registry's entry identifiers. -/
theorem nodup_tick (reg : Registry) (snap : Snapshot)
    (hN : (reg.entries.map (fun e => e.id)).Nodup) :
    ((reg.tick snap).entries.map (fun e => e.id)).Nodup :=
  nodup_filterMap_process reg.scope snap reg.entries hN

/-- Entry lookup after a tick, reduced to processing the looked-up entry. -/
theorem findEntry_tick (reg : Registry) (snap : Snapshot) (x : Nat)
    (hN : (reg.entries.map (fun e => e.id)).Nodup) :
    (reg.tick snap).findEntry x
      = (reg.findEntry x).bind (fun e => (processEntry reg.scope snap e).1) :=
  find?_filterMap_process reg.scope snap x reg.entries hN

/-- A member of a list with distinct identifiers is found by its
identifier. -/
theorem find?_eq_of_mem_nodup :
    ∀ (l : List EventData) (e : EventData) (x : Nat),
      (l.map (fun e => e.id)).Nodup → e ∈ l → e.id = x →
      l.find? (fun e2 => e2.id == x) = some e := by
  intro l
  induction l with
  | nil => intro e x _ he _; cases he
  | cons a l ih =>
    intro e x hN he hex
    rw [List.map_cons, List.nodup_cons] at hN
    rcases List.mem_cons.1 he with rfl | he2
    · exact List.find?_cons_of_pos _ (by simpa using hex)
    · have hax : ¬(a.id = x) := by
        intro h
        apply hN.1
        rw [h, ← hex]
        exact List.mem_map.2 ⟨e, he2, rfl⟩
      rw [@List.find?_cons_of_neg _ (fun e2 => e2.id == x) a l (by simpa using hax)]
      exact ih e x hN.2 he2 hex

/-- Membership in the fired set of one tick, reduced to the looked-up entry
(identifiers distinct). -/
theorem mem_firedIds_iff (reg : Registry) (snap : Snapshot) (x : Nat)
    (hN : (reg.entries.map (fun e => e.id)).Nodup) :
    x ∈ reg.firedIds snap ↔
      ∃ e, reg.findEntry x = some e ∧ (processEntry reg.scope snap e).2.1 = true := by
  constructor
  · intro hx
    unfold Registry.firedIds at hx
    rcases List.mem_map.1 hx with ⟨e, hef, rfl⟩
    rcases List.mem_filter.1 hef with ⟨he, hfired⟩
    exact ⟨e, find?_eq_of_mem_nodup reg.entries e e.id hN he rfl, by simpa using hfired⟩
  · rintro ⟨e, hfind, hfired⟩
    have he := List.mem_of_find?_eq_some hfind
    have hex : e.id = x := by simpa using List.find?_some hfind
    unfold Registry.firedIds
    rw [← hex]
    exact List.mem_map.2 ⟨e, List.mem_filter.2 ⟨he, by simpa using hfired⟩, rfl⟩

/-- Membership in the fault set of one tick, from the looked-up entry. -/
theorem mem_faultIds_of (reg : Registry) (snap : Snapshot) (x : Nat)
    (e : EventData) (hfind : reg.findEntry x = some e)
    (hfault : (processEntry reg.scope snap e).2.2 = true) :
    x ∈ reg.faultIds snap := by
  have he := List.mem_of_find?_eq_some hfind
  have hex : e.id = x := by simpa using List.find?_some hfind
  unfold Registry.faultIds
  rw [← hex]
  exact List.mem_map.2 ⟨e, List.mem_filter.2 ⟨he, by simpa using hfault⟩, rfl⟩

/-- Registry lookup after a run of ticks equals single-entry evolution of the
looked-up entry (identifiers distinct). -/
theorem findEntry_runTicks (x : Nat) :
    ∀ (snaps : List Snapshot) (reg : Registry),
      (reg.entries.map (fun e => e.id)).Nodup →
      (reg.runTicks snaps).findEntry x
        = entryAfter reg.scope (reg.findEntry x) snaps := by
  intro snaps
  induction snaps with
  | nil => intro reg _; rfl
  | cons s ss ih =>
    intro reg hN
    show ((reg.tick s).runTicks ss).findEntry x = _
    rw [ih (reg.tick s) (nodup_tick reg s hN), tick_scope]
    show entryAfter reg.scope ((reg.tick s).findEntry x) ss
      = entryAfter reg.scope (stepEntry reg.scope s (reg.findEntry x)).1 ss
    rw [findEntry_tick reg s x hN, stepEntry_fst]

/-- The fire-instant trace of an identifier in a registry equals the
single-entry trace of the looked-up entry (identifiers distinct). -/
theorem fireInstantsFrom_bridge (x : Nat) :
    ∀ (snaps : List Snapshot) (reg : Registry) (acc : Nat),
      (reg.entries.map (fun e => e.id)).Nodup →
      fireInstantsFrom reg x acc snaps
        = entryInstants reg.scope (reg.findEntry x) acc snaps := by
  intro snaps
  induction snaps with
  | nil => intro reg acc _; rfl
  | cons s ss ih =>
    intro reg acc hN
    have hrec : fireInstantsFrom (reg.tick s) x (acc + s.elapsed) ss
        = entryInstants reg.scope (stepEntry reg.scope s (reg.findEntry x)).1 (acc + s.elapsed) ss := by
      rw [ih (reg.tick s) (acc + s.elapsed) (nodup_tick reg s hN), tick_scope,
        findEntry_tick reg s x hN, stepEntry_fst]
    by_cases hx : x ∈ reg.firedIds s
    · have h2 : (stepEntry reg.scope s (reg.findEntry x)).2 = true := by
        rcases (mem_firedIds_iff reg s x hN).1 hx with ⟨e, hfind, hfired⟩
        rw [hfind] at *
        simpa [stepEntry] using hfired
      simp only [fireInstantsFrom, entryInstants, if_pos hx, h2, if_true]
      rw [hrec]
    · have h2 : ¬((stepEntry reg.scope s (reg.findEntry x)).2 = true) := by
        intro hstep
        apply hx
        rw [mem_firedIds_iff reg s x hN]
        cases hfind : reg.findEntry x with
        | none => rw [hfind] at hstep; simp [stepEntry] at hstep
        | some e =>
          rw [hfind] at hstep
          exact ⟨e, rfl, by simpa [stepEntry] using hstep⟩
      simp only [fireInstantsFrom, entryInstants, if_neg hx, if_neg h2]
      rw [hrec]

/-- The fire-tick trace of an identifier in a registry equals the
single-entry trace of the looked-up entry (identifiers distinct). -/
theorem fireTicksFrom_bridge (x : Nat) :
    ∀ (snaps : List Snapshot) (reg : Registry) (t : Nat),
      (reg.entries.map (fun e => e.id)).Nodup →
      fireTicksFrom reg x t snaps
        = entryTicks reg.scope (reg.findEntry x) t snaps := by
  intro snaps
  induction snaps with
  | nil => intro reg t _; rfl
  | cons s ss ih =>
    intro reg t hN
    have hrec : fireTicksFrom (reg.tick s) x (t + 1) ss
        = entryTicks reg.scope (stepEntry reg.scope s (reg.findEntry x)).1 (t + 1) ss := by
      rw [ih (reg.tick s) (t + 1) (nodup_tick reg s hN), tick_scope,
        findEntry_tick reg s x hN, stepEntry_fst]
    by_cases hx : x ∈ reg.firedIds s
    · have h2 : (stepEntry reg.scope s (reg.findEntry x)).2 = true := by
        rcases (mem_firedIds_iff reg s x hN).1 hx with ⟨e, hfind, hfired⟩
        rw [hfind] at *
        simpa [stepEntry] using hfired
      simp only [fireTicksFrom, entryTicks, if_pos hx, h2, if_true]
      rw [hrec]
    · have h2 : ¬((stepEntry reg.scope s (reg.findEntry x)).2 = true) := by
        intro hstep
        apply hx
        rw [mem_firedIds_iff reg s x hN]
        cases hfind : reg.findEntry x with
        | none => rw [hfind] at hstep; simp [stepEntry] at hstep
        | some e =>
          rw [hfind] at hstep
          exact ⟨e, rfl, by simpa [stepEntry] using hstep⟩
      simp only [fireTicksFrom, entryTicks, if_neg hx, if_neg h2]
      rw [hrec]

/-- Time advance leaves a global-only (`Core`) entry untouched. -/
theorem advanceTime_global_only (d : Nat) (e : EventData)
    (hev : e.event.is_global_only = true) : advanceTime d e = e := by
  rcases e with ⟨i, ev, h, r, fc⟩
  cases ev <;> simp_all [Event.is_global_only, advanceTime]

/-- On a local registry, a global-only entry is completely inert for one
tick: it survives unchanged, never fires, and reports no fault. -/
theorem processEntry_inert_local (scope : Scope) (snap : Snapshot)
    (e : EventData) (hscope : scope.isLocal = true)
    (hev : e.event.is_global_only = true) :
    processEntry scope snap e = (some e, false, false) := by
  have hadv : advanceTime snap.elapsed e = e := advanceTime_global_only _ _ hev
  have hfire : fireable scope snap (advanceTime snap.elapsed e) = false := by
    rw [hadv]
    unfold fireable
    rw [hev, hscope]
    simp
  rw [processEntry_not_fireable _ _ _ hfire, hadv]

/-- On a local registry, a global-only entry survives any run of ticks
unchanged and never appears in the fired log. -/
theorem core_local_persists (x : Nat) (e : EventData)
    (hev : e.event.is_global_only = true) :
    ∀ (snaps : List Snapshot) (reg : Registry),
      reg.scope = Scope.localScope →
      (reg.entries.map (fun e => e.id)).Nodup →
      reg.findEntry x = some e →
      (reg.runTicks snaps).findEntry x = some e ∧ x ∉ reg.firedLog snaps := by
  intro snaps
  induction snaps with
  | nil =>
    intro reg _ _ hfind
    exact ⟨hfind, by simp [Registry.firedLog]⟩
  | cons s ss ih =>
    intro reg hscope hN hfind
    have hproc : processEntry reg.scope s e = (some e, false, false) :=
      processEntry_inert_local reg.scope s e (by rw [hscope]; rfl) hev
    have hfind2 : (reg.tick s).findEntry x = some e := by
      rw [findEntry_tick reg s x hN, hfind, Option.some_bind, hproc]
    have hrest := ih (reg.tick s) (by rw [tick_scope]; exact hscope)
      (nodup_tick reg s hN) hfind2
    refine ⟨hrest.1, ?_⟩
    intro hmem
    simp only [Registry.firedLog, List.mem_append] at hmem
    rcases hmem with hmem | hmem
    · rcases (mem_firedIds_iff reg s x hN).1 hmem with ⟨e2, hfind3, hfired⟩
      rw [hfind] at hfind3
      cases hfind3
      rw [hproc] at hfired
      simp at hfired
    · exact hrest.2 hmem

/-- Registration appends the fresh entry, so it is found under the returned
identifier provided that identifier was not already in use. -/
theorem register_findEntry (reg : Registry) (ev : Event) (h : Handler)
    (hfresh : ∀ e ∈ reg.entries, e.id ≠ reg.nextId) :
    (reg.register ev h).1.findEntry (reg.register ev h).2
      = some (freshEntry ev h reg.nextId) := by
  show (reg.entries ++ [freshEntry ev h reg.nextId]).find?
      (fun e => e.id == reg.nextId) = _
  rw [List.find?_append]
  have h1 : reg.entries.find? (fun e => e.id == reg.nextId) = none := by
    rw [List.find?_eq_none]
    intro e he hbeq
    exact hfresh e he (by simpa using hbeq)
  rw [h1]
  show ([freshEntry ev h reg.nextId]).find? (fun e => e.id == reg.nextId) = _
  rw [@List.find?_cons_of_pos _ (fun e => e.id == reg.nextId)
    (freshEntry ev h reg.nextId) [] (by simp [freshEntry])]

/-- Registration preserves distinctness of identifiers, provided the next
identifier was not already in use. -/
theorem register_nodup (reg : Registry) (ev : Event) (h : Handler)
    (hN : (reg.entries.map (fun e => e.id)).Nodup)
    (hfresh : ∀ e ∈ reg.entries, e.id ≠ reg.nextId) :
    ((reg.register ev h).1.entries.map (fun e => e.id)).Nodup := by
  show ((reg.entries ++ [freshEntry ev h reg.nextId]).map (fun e => e.id)).Nodup
  rw [List.map_append]
  rw [List.nodup_append]
  refine ⟨hN, by simp, ?_⟩
  intro z hz hz2
  simp [freshEntry] at hz2
  rcases List.mem_map.1 hz with ⟨e, he, hez⟩
  exact hfresh e he (by rw [hez, hz2])

/-- C2: `Event::is_global_only` returns `true` exactly on `Core` descriptors:
it is `true` on `Core(k)` for every core kind `k`, and `false` on every
`Periodic`, `Delayed`, `Track` and `Cancel` value. -/
theorem is_global_only_iff_core :
    (∀ k : CoreEvent, (Event.Core k).is_global_only = true) ∧
    (∀ (p : Nat) (ph : Option Nat), (Event.Periodic p ph).is_global_only = false) ∧
    (∀ d : Nat, (Event.Delayed d).is_global_only = false) ∧
    (∀ t : TrackEvent, (Event.Track t).is_global_only = false) ∧
    (Event.Cancel.is_global_only = false) ∧
    (∀ e : Event, e.is_global_only = true ↔ ∃ k, e = Event.Core k) := by
  refine ⟨fun _ => rfl, fun _ _ => rfl, fun _ => rfl, fun _ => rfl, rfl, fun e => ?_⟩
  cases e <;> simp [Event.is_global_only]

/-- C9: the `Event` descriptor type consists of exactly five mutually exclusive
kinds — `Periodic` with a period and an optional phase, `Delayed` with a delay,
`Track` with a `TrackEvent` kind, `Core` with a `CoreEvent` kind, and `Cancel`
with no payload. Every descriptor value is built by exactly one of the five
constructors, the constructors are pairwise distinct, and each is injective in
its payload (values are immutable data: the embedding has no mutating
operation, every change builds a whole new value). -/
theorem event_exactly_five_kinds :
    (∀ e : Event,
      (∃ p ph, e = Event.Periodic p ph) ∨ (∃ d, e = Event.Delayed d) ∨
      (∃ t, e = Event.Track t) ∨ (∃ k, e = Event.Core k) ∨ e = Event.Cancel) ∧
    (∀ p ph d, Event.Periodic p ph ≠ Event.Delayed d) ∧
    (∀ p ph t, Event.Periodic p ph ≠ Event.Track t) ∧
    (∀ p ph k, Event.Periodic p ph ≠ Event.Core k) ∧
    (∀ p ph, Event.Periodic p ph ≠ Event.Cancel) ∧
    (∀ d t, Event.Delayed d ≠ Event.Track t) ∧
    (∀ d k, Event.Delayed d ≠ Event.Core k) ∧
    (∀ d, Event.Delayed d ≠ Event.Cancel) ∧
    (∀ t k, Event.Track t ≠ Event.Core k) ∧
    (∀ t, Event.Track t ≠ Event.Cancel) ∧
    (∀ k, Event.Core k ≠ Event.Cancel) ∧
    (∀ p ph p2 ph2, Event.Periodic p ph = Event.Periodic p2 ph2 → p = p2 ∧ ph = ph2) ∧
    (∀ d d2, Event.Delayed d = Event.Delayed d2 → d = d2) ∧
    (∀ t t2, Event.Track t = Event.Track t2 → t = t2) ∧
    (∀ k k2, Event.Core k = Event.Core k2 → k = k2) := by
  refine ⟨fun e => ?_, ?_⟩
  · cases e with
    | Periodic p ph => exact Or.inl ⟨p, ph, rfl⟩
    | Delayed d => exact Or.inr (Or.inl ⟨d, rfl⟩)
    | Track t => exact Or.inr (Or.inr (Or.inl ⟨t, rfl⟩))
    | Core k => exact Or.inr (Or.inr (Or.inr (Or.inl ⟨k, rfl⟩)))
    | Cancel => exact Or.inr (Or.inr (Or.inr (Or.inr rfl)))
  · refine ⟨?_, ?_, ?_, ?_, ?_, ?_, ?_, ?_, ?_, ?_, ?_, ?_, ?_, ?_⟩ <;>
      intros <;> simp_all

/-- C10: the `From` conversions are exactly the corresponding constructors and
compose with scope classification: `Event::from(t) = Track(t)` with
`is_global_only = false`, `Event::from(c) = Core(c)` with
`is_global_only = true`; both conversions are injective and never produce
`Cancel` or a time-based variant. -/
theorem from_conversions_are_constructors :
    (∀ t : TrackEvent, Event.fromTrackEvent t = Event.Track t ∧
      (Event.fromTrackEvent t).is_global_only = false) ∧
    (∀ k : CoreEvent, Event.fromCoreEvent k = Event.Core k ∧
      (Event.fromCoreEvent k).is_global_only = true) ∧
    (∀ t t2, Event.fromTrackEvent t = Event.fromTrackEvent t2 → t = t2) ∧
    (∀ k k2, Event.fromCoreEvent k = Event.fromCoreEvent k2 → k = k2) ∧
    (∀ t, Event.fromTrackEvent t ≠ Event.Cancel ∧
      (∀ p ph, Event.fromTrackEvent t ≠ Event.Periodic p ph) ∧
      (∀ d, Event.fromTrackEvent t ≠ Event.Delayed d)) ∧
    (∀ k, Event.fromCoreEvent k ≠ Event.Cancel ∧
      (∀ p ph, Event.fromCoreEvent k ≠ Event.Periodic p ph) ∧
      (∀ d, Event.fromCoreEvent k ≠ Event.Delayed d)) := by
  refine ⟨fun t => ⟨rfl, rfl⟩, fun k => ⟨rfl, rfl⟩, ?_, ?_, ?_, ?_⟩ <;>
    intros <;> simp_all [Event.fromTrackEvent, Event.fromCoreEvent]

/-- Structure equality from component equality. -/
theorem eventData_eq (a b : EventData) (h1 : a.id = b.id) (h2 : a.event = b.event)
    (h3 : a.handler = b.handler) (h4 : a.remaining = b.remaining)
    (h5 : a.fireCount = b.fireCount) : a = b := by
  cases a
  cases b
  simp_all

/-- Lifecycle application of an override that is not `Cancel`: the entry
becomes a fresh registration of the new descriptor under its own identifier
and handler. -/
theorem applyOverride_some_not_cancel (eb : EventData) (other : Event)
    (hne : other ≠ Event.Cancel) :
    applyOverride eb (some other) = some (freshEntry other eb.handler eb.id) := by
  cases other <;> first | rfl | exact absurd rfl hne

/-- A removed entry never fires again. -/
theorem entryInstants_none (scope : Scope) :
    ∀ (snaps : List Snapshot) (acc : Nat),
      entryInstants scope none acc snaps = [] := by
  intro snaps
  induction snaps with
  | nil => intro acc; rfl
  | cons s ss ih =>
    intro acc
    simp only [entryInstants, stepEntry]
    exact ih (acc + s.elapsed)

/-- An entry whose descriptor is the bare `Cancel` sentinel never fires. -/
theorem entryInstants_cancel_event (scope : Scope) :
    ∀ (snaps : List Snapshot) (e : EventData) (acc : Nat),
      e.event = Event.Cancel →
      entryInstants scope (some e) acc snaps = [] := by
  intro snaps
  induction snaps with
  | nil => intro e acc _; rfl
  | cons s ss ih =>
    intro e acc hev
    have hadv : advanceTime s.elapsed e = e :=
      advanceTime_untimed _ _ (by simp [hev]) (by simp [hev])
    have hfire : fireable scope s (advanceTime s.elapsed e) = false := by
      rw [hadv]
      unfold fireable
      rw [hev]
      simp [Event.is_global_only]
    have hproc := processEntry_not_fireable scope s e hfire
    simp only [entryInstants, stepEntry, hproc]
    rw [hadv]
    exact ih e (acc + s.elapsed) hev

/-- C6: an entry whose handler returns `Some(other)` is re-armed exactly as a
fresh registration of `other` (same identifier, same handler) made at the
override instant: when `other` is not `Cancel` the stored entry literally
equals the fresh registration, and in every case the subsequent trace of
fire instants over any further tick sequence coincides with that of the
fresh registration. -/
theorem override_rearms_as_fresh (scope : Scope) (snap : Snapshot)
    (e : EventData) (other : Event)
    (hfire : fireable scope snap (advanceTime snap.elapsed e) = true)
    (hout : e.handler (mkCtx snap e) = .ok (some other)) :
    (other ≠ Event.Cancel →
      (processEntry scope snap e).1 = some (freshEntry other e.handler e.id)) ∧
    (∀ (snaps : List Snapshot) (acc : Nat),
      entryInstants scope (processEntry scope snap e).1 acc snaps
        = entryInstants scope (some (freshEntry other e.handler e.id)) acc snaps) := by
  have hproc := processEntry_fire_ok scope snap e (some other) hfire hout
  have hid : (bump (advanceTime snap.elapsed e)).id = e.id := by
    rw [(bump_fields _).1, advanceTime_id]
  have hhandler : (bump (advanceTime snap.elapsed e)).handler = e.handler := by
    rw [(bump_fields _).2.2.1, advanceTime_handler]
  constructor
  · intro hne
    rw [hproc]
    dsimp only
    rw [applyOverride_some_not_cancel _ _ hne, hid, hhandler]
  · intro snaps acc
    by_cases hc : other = Event.Cancel
    · subst hc
      rw [hproc]
      dsimp only
      rw [show applyOverride (bump (advanceTime snap.elapsed e)) (some Event.Cancel)
            = none from rfl]
      rw [entryInstants_none scope snaps acc,
        entryInstants_cancel_event scope snaps _ acc rfl]
    · rw [hproc]
      dsimp only
      rw [applyOverride_some_not_cancel _ _ hc, hid, hhandler]

/-- Witness for C6 at a concrete entry: a `Track(End)` entry overridden to
`Delayed(4)` is stored as, and behaves as, a fresh `Delayed(4)`
registration. -/
theorem override_rearms_as_fresh_witness :
    (Event.Delayed 4 ≠ Event.Cancel →
      (processEntry Scope.globalScope snapTrackEnd entryTrackToDelayed).1
        = some (freshEntry (Event.Delayed 4) entryTrackToDelayed.handler
            entryTrackToDelayed.id)) ∧
    (∀ (snaps : List Snapshot) (acc : Nat),
      entryInstants Scope.globalScope
          (processEntry Scope.globalScope snapTrackEnd entryTrackToDelayed).1 acc snaps
        = entryInstants Scope.globalScope
          (some (freshEntry (Event.Delayed 4) entryTrackToDelayed.handler
            entryTrackToDelayed.id)) acc snaps) :=
  override_rearms_as_fresh Scope.globalScope snapTrackEnd entryTrackToDelayed
    (Event.Delayed 4) rfl rfl

/-- C7: during any single tick, each entry's handler is invoked at most once
— the fired-identifier list of a tick has no duplicates — for every snapshot,
including ticks whose elapsed duration spans many periods of a `Periodic`
descriptor and ticks in which many tracks match the same `Track`/`Core`
entry. -/
theorem handler_at_most_once_per_tick (reg : Registry) (snap : Snapshot)
    (hN : (reg.entries.map (fun e => e.id)).Nodup) :
    (reg.firedIds snap).Nodup ∧ ∀ x : Nat, (reg.firedIds snap).count x ≤ 1 := by
  have hsub : List.Sublist (reg.firedIds snap) (reg.entries.map (fun e => e.id)) := by
    unfold Registry.firedIds
    exact (List.filter_sublist _).map _
  have hnd := hN.sublist hsub
  exact ⟨hnd, fun x => List.nodup_iff_count_le_one.1 hnd x⟩

/-- Witness for C7 at a concrete registry and a tick spanning fifty periods
of its `Periodic(2)` entry. -/
theorem handler_at_most_once_per_tick_witness :
    (regPeriodicFx.firedIds (timedSnap 100)).Nodup ∧
    ∀ x : Nat, (regPeriodicFx.firedIds (timedSnap 100)).count x ≤ 1 :=
  handler_at_most_once_per_tick regPeriodicFx (timedSnap 100)
    (by simp [regPeriodicFx])

/-- Identifier component of observable equality. -/
theorem obs_id_eq {a b : EventData} (h : a.obs = b.obs) : a.id = b.id :=
  congrArg (fun t => t.1) h

/-- Descriptor component of observable equality. -/
theorem obs_event_eq {a b : EventData} (h : a.obs = b.obs) : a.event = b.event :=
  congrArg (fun t => t.2.1) h

/-- Remaining-wait component of observable equality. -/
theorem obs_remaining_eq {a b : EventData} (h : a.obs = b.obs) :
    a.remaining = b.remaining :=
  congrArg (fun t => t.2.2.1) h

/-- Fire-count component of observable equality. -/
theorem obs_fireCount_eq {a b : EventData} (h : a.obs = b.obs) :
    a.fireCount = b.fireCount :=
  congrArg (fun t => t.2.2.2) h

/-- Bumping the fire count preserves observable equality. -/
theorem bump_obs {a b : EventData} (h : a.obs = b.obs) :
    (bump a).obs = (bump b).obs := by
  simp [EventData.obs, bump, obs_id_eq h, obs_event_eq h, obs_remaining_eq h,
    obs_fireCount_eq h]

/-- Replacing the handler does not change the observable effect of time
advance. -/
theorem advanceTime_obs_handler (d : Nat) (e : EventData) (h2 : Handler) :
    (advanceTime d { e with handler := h2 }).obs = (advanceTime d e).obs := by
  rcases e with ⟨i, ev, h, r, fc⟩
  cases ev <;> rfl

/-- Default (`None`) lifecycle application sends observably equal entries to
observably equal results. -/
theorem applyOverride_none_obs (a b : EventData) (h : a.obs = b.obs) :
    (applyOverride a none).map EventData.obs
      = (applyOverride b none).map EventData.obs := by
  have hev := obs_event_eq h
  cases hea : a.event with
  | Periodic p ph =>
    have heb : b.event = Event.Periodic p ph := by rw [← hev, hea]
    unfold applyOverride
    rw [hea, heb]
    simp [EventData.obs, obs_id_eq h, hev, obs_fireCount_eq h]
  | Delayed d0 =>
    have heb : b.event = Event.Delayed d0 := by rw [← hev, hea]
    unfold applyOverride
    rw [hea, heb]
  | Track t =>
    have heb : b.event = Event.Track t := by rw [← hev, hea]
    unfold applyOverride
    rw [hea, heb]
    simp [h]
  | Core c =>
    have heb : b.event = Event.Core c := by rw [← hev, hea]
    unfold applyOverride
    rw [hea, heb]
    simp [h]
  | Cancel =>
    have heb : b.event = Event.Cancel := by rw [← hev, hea]
    unfold applyOverride
    rw [hea, heb]
    simp [h]

/-- A failing handler leaves its own entry observably exactly as a handler
returning `None` would: same surviving observable state, same fired flag. -/
theorem processEntry_failure_as_none (scope : Scope) (snap : Snapshot)
    (e : EventData)
    (hfail : e.handler (mkCtx snap e) = HandlerOutcome.failure) :
    ((processEntry scope snap e).1.map EventData.obs
        = (processEntry scope snap { e with handler := handlerNone }).1.map EventData.obs) ∧
    (processEntry scope snap e).2.1
        = (processEntry scope snap { e with handler := handlerNone }).2.1 := by
  have hobs : (advanceTime snap.elapsed { e with handler := handlerNone }).obs
      = (advanceTime snap.elapsed e).obs := advanceTime_obs_handler _ _ _
  have hfeq : fireable scope snap (advanceTime snap.elapsed { e with handler := handlerNone })
      = fireable scope snap (advanceTime snap.elapsed e) :=
    fireable_eq_of _ _ _ _ (obs_event_eq hobs) (obs_remaining_eq hobs)
  by_cases hf : fireable scope snap (advanceTime snap.elapsed e) = true
  · have hf2 : fireable scope snap (advanceTime snap.elapsed
        { e with handler := handlerNone }) = true := by rw [hfeq]; exact hf
    have hout2 : ({ e with handler := handlerNone } : EventData).handler
        (mkCtx snap { e with handler := handlerNone }) = .ok none := rfl
    rw [processEntry_fire_failure scope snap e hf hfail,
      processEntry_fire_ok scope snap { e with handler := handlerNone } none hf2 hout2]
    dsimp only
    exact ⟨applyOverride_none_obs _ _ (bump_obs hobs.symm), rfl⟩
  · have hf2 : fireable scope snap (advanceTime snap.elapsed
        { e with handler := handlerNone }) = false := by
      rw [hfeq]; simpa using hf
    rw [processEntry_not_fireable _ _ _ (by simpa using hf),
      processEntry_not_fireable _ _ _ hf2]
    dsimp only
    exact ⟨congrArg some hobs.symm, rfl⟩

/-- Mapping after `filterMap` is insensitive to a pointwise change that is
invisible under the mapping. -/
theorem filterMap_map_congr {α β γ : Type} (f f2 : α → Option β) (g : β → γ) :
    ∀ l : List α, (∀ a ∈ l, (f a).map g = (f2 a).map g) →
      (l.filterMap f).map g = (l.filterMap f2).map g := by
  intro l
  induction l with
  | nil => intro _; rfl
  | cons a l ih =>
    intro h
    have ha := h a (List.mem_cons_self a l)
    have hrest := ih (fun b hb => h b (List.mem_cons_of_mem a hb))
    simp only [List.filterMap_cons]
    cases hfa : f a with
    | none =>
      rw [hfa] at ha
      cases hf2a : f2 a with
      | none => exact hrest
      | some b2 => rw [hf2a] at ha; simp at ha
    | some b =>
      rw [hfa] at ha
      cases hf2a : f2 a with
      | none => rw [hf2a] at ha; simp at ha
      | some b2 =>
        rw [hf2a] at ha
        have ha2 : g b = g b2 := by simpa using ha
        simp only [List.map_cons]
        rw [ha2, hrest]

/-- Filtering then mapping to identifiers is insensitive to a pointwise
entry change that preserves the filter flag and the identifier. -/
theorem filter_map_id_congr (q q2 : EventData → Bool) (g : EventData → EventData) :
    ∀ l : List EventData,
      (∀ a ∈ l, q a = q2 (g a) ∧ (g a).id = a.id) →
      (l.filter q).map (fun e => e.id) = ((l.map g).filter q2).map (fun e => e.id) := by
  intro l
  induction l with
  | nil => intro _; rfl
  | cons a l ih =>
    intro h
    have ha := h a (List.mem_cons_self a l)
    have hrest := ih (fun b hb => h b (List.mem_cons_of_mem a hb))
    simp only [List.map_cons, List.filter_cons]
    rw [← ha.1]
    cases hqa : q a with
    | false => simpa [hqa] using hrest
    | true =>
      simp only [hqa, if_true]
      rw [List.map_cons, List.map_cons, ha.2, hrest]

/-- In a list with distinct identifiers, any member carrying the looked-up
identifier is the found entry. -/
theorem mem_id_unique (l : List EventData) (e a : EventData) (x : Nat)
    (hN : (l.map (fun e => e.id)).Nodup)
    (hfind : l.find? (fun e2 => e2.id == x) = some e)
    (ha : a ∈ l) (hax : a.id = x) : a = e := by
  have he := List.mem_of_find?_eq_some hfind
  have hex : e.id = x := by simpa using List.find?_some hfind
  exact List.inj_on_of_nodup_map hN ha he (by rw [hax, hex])

/-- C8: a handler failure (panic) during `act` is isolated: the tick's
resulting entries are observably identical to those of the same tick on the
registry whose failing handler is replaced by one returning `None` (so every
other entry's scheduling state and membership are untouched and the failing
entry follows its kind's default persistence), the same entries fire, and —
whenever the failing entry did fire — the fault is reported in the tick's
fault list rather than silently swallowed. -/
theorem handler_failure_isolated (reg : Registry) (snap : Snapshot) (x : Nat)
    (e : EventData)
    (hN : (reg.entries.map (fun e => e.id)).Nodup)
    (hfind : reg.findEntry x = some e)
    (hfail : e.handler (mkCtx snap e) = HandlerOutcome.failure) :
    ((reg.tick snap).entries.map EventData.obs
        = ((setHandlerAt reg x handlerNone).tick snap).entries.map EventData.obs) ∧
    (reg.firedIds snap = (setHandlerAt reg x handlerNone).firedIds snap) ∧
    (fireable reg.scope snap (advanceTime snap.elapsed e) = true →
      x ∈ reg.faultIds snap) := by
  have hpoint : ∀ a ∈ reg.entries,
      ((processEntry reg.scope snap a).1.map EventData.obs
        = (processEntry reg.scope snap
            (if a.id == x then { a with handler := handlerNone } else a)).1.map EventData.obs)
      ∧ (processEntry reg.scope snap a).2.1
        = (processEntry reg.scope snap
            (if a.id == x then { a with handler := handlerNone } else a)).2.1 := by
    intro a ha
    by_cases hax : (a.id == x) = true
    · have hae : a = e := mem_id_unique reg.entries e a x hN hfind ha (by simpa using hax)
      subst hae
      rw [if_pos hax]
      exact processEntry_failure_as_none reg.scope snap a hfail
    · rw [if_neg hax]
      exact ⟨rfl, rfl⟩
  refine ⟨?_, ?_, ?_⟩
  · show (reg.entries.filterMap (fun e => (processEntry reg.scope snap e).1)).map EventData.obs
      = ((reg.entries.map (fun a => if a.id == x then { a with handler := handlerNone } else a)).filterMap
          (fun e => (processEntry reg.scope snap e).1)).map EventData.obs
    rw [List.filterMap_map]
    exact filterMap_map_congr _ _ _ reg.entries (fun a ha => (hpoint a ha).1)
  · show (reg.entries.filter (fun e => (processEntry reg.scope snap e).2.1)).map (fun e => e.id)
      = ((reg.entries.map (fun a => if a.id == x then { a with handler := handlerNone } else a)).filter
          (fun e => (processEntry reg.scope snap e).2.1)).map (fun e => e.id)
    refine filter_map_id_congr _ _ _ reg.entries (fun a ha => ⟨(hpoint a ha).2, ?_⟩)
    by_cases hax : (a.id == x) = true
    · rw [if_pos hax]
    · rw [if_neg hax]
  · intro hf
    exact mem_faultIds_of reg snap x e hfind
      (by rw [processEntry_fire_failure reg.scope snap e hf hfail])

/-- Witness for C8 at a concrete registry: a failing `Periodic(1)` entry
fires, is re-armed as if it had returned `None`, leaves the neighbouring
`Delayed(3)` entry untouched, and appears in the fault list. -/
theorem handler_failure_isolated_witness :
    ((regFailFx.tick (timedSnap 1)).entries.map EventData.obs
        = ((setHandlerAt regFailFx 0 handlerNone).tick (timedSnap 1)).entries.map EventData.obs) ∧
    (regFailFx.firedIds (timedSnap 1)
        = (setHandlerAt regFailFx 0 handlerNone).firedIds (timedSnap 1)) ∧
    (fireable regFailFx.scope (timedSnap 1)
        (advanceTime (timedSnap 1).elapsed
          (freshEntry (Event.Periodic 1 none) handlerFail 0)) = true →
      0 ∈ regFailFx.faultIds (timedSnap 1)) :=
  handler_failure_isolated regFailFx (timedSnap 1) 0
    (freshEntry (Event.Periodic 1 none) handlerFail 0)
    (by simp [regFailFx, freshEntry]) rfl rfl

/-- No snapshots, no elapsed time. -/
theorem partialElapsed_nil (i : Nat) : partialElapsed [] i = 0 := by
  cases i <;> rfl

/-- Zero ticks, zero elapsed time. -/
theorem partialElapsed_zero (l : List Snapshot) : partialElapsed l 0 = 0 := by
  cases l <;> rfl

/-- Unfolding of the cumulative elapsed time across the first tick. -/
theorem partialElapsed_cons_succ (s : Snapshot) (ss : List Snapshot) (i : Nat) :
    partialElapsed (s :: ss) (i + 1) = s.elapsed + partialElapsed ss i := rfl

/-- On a `Periodic` entry, fireability is exactly "remaining wait is
zero". -/
theorem fireable_periodic (scope : Scope) (snap : Snapshot) (e : EventData)
    (p : Nat) (ph : Option Nat) (hev : e.event = Event.Periodic p ph) :
    fireable scope snap e = (e.remaining == 0) := by
  unfold fireable
  rw [hev]
  simp [Event.is_global_only]

/-- On a `Delayed` entry, fireability is exactly "remaining wait is
zero". -/
theorem fireable_delayed (scope : Scope) (snap : Snapshot) (e : EventData)
    (d0 : Nat) (hev : e.event = Event.Delayed d0) :
    fireable scope snap e = (e.remaining == 0) := by
  unfold fireable
  rw [hev]
  simp [Event.is_global_only]

/-- Default lifecycle application on a `Periodic` entry: re-arm with wait
equal to the period. -/
theorem applyOverride_none_periodic (eb : EventData) (p : Nat) (ph : Option Nat)
    (hev : eb.event = Event.Periodic p ph) :
    applyOverride eb none = some { eb with remaining := p } := by
  unfold applyOverride
  rw [hev]

/-- Default lifecycle application on a `Delayed` entry: removal. -/
theorem applyOverride_none_delayed (eb : EventData) (d0 : Nat)
    (hev : eb.event = Event.Delayed d0) :
    applyOverride eb none = none := by
  unfold applyOverride
  rw [hev]

/-- A `Periodic` entry whose remaining wait exceeds the tick's elapsed time
merely counts down. -/
theorem processEntry_periodic_nofire (scope : Scope) (snap : Snapshot)
    (e : EventData) (p : Nat) (ph : Option Nat)
    (hev : e.event = Event.Periodic p ph)
    (hgt : snap.elapsed < e.remaining) :
    processEntry scope snap e = (some (advanceTime snap.elapsed e), false, false) := by
  apply processEntry_not_fireable
  rw [fireable_periodic scope snap _ p ph (by rw [advanceTime_event]; exact hev),
    advanceTime_remaining_periodic snap.elapsed e p ph hev]
  simp only [beq_eq_false_iff_ne, ne_eq]
  omega

/-- A `Periodic` entry whose remaining wait elapses during the tick fires
once and is re-armed with wait equal to its period (the handler returning
`None`). -/
theorem processEntry_periodic_fire (scope : Scope) (snap : Snapshot)
    (e : EventData) (p : Nat) (ph : Option Nat)
    (hev : e.event = Event.Periodic p ph)
    (hh : ∀ ctx, e.handler ctx = HandlerOutcome.ok none)
    (hle : e.remaining ≤ snap.elapsed) :
    processEntry scope snap e
      = (some { e with remaining := p, fireCount := e.fireCount + 1 },
         true, false) := by
  have hfire : fireable scope snap (advanceTime snap.elapsed e) = true := by
    rw [fireable_periodic scope snap _ p ph (by rw [advanceTime_event]; exact hev),
      advanceTime_remaining_periodic snap.elapsed e p ph hev]
    simp only [beq_iff_eq]
    omega
  rw [processEntry_fire_ok scope snap e none hfire (hh _)]
  have hbev : (bump (advanceTime snap.elapsed e)).event = Event.Periodic p ph := by
    rw [(bump_fields _).2.1, advanceTime_event, hev]
  rw [applyOverride_none_periodic _ p ph hbev]
  have hAB : ({ bump (advanceTime snap.elapsed e) with remaining := p } : EventData)
      = { e with remaining := p, fireCount := e.fireCount + 1 } := by
    apply eventData_eq
    · show (bump (advanceTime snap.elapsed e)).id = e.id
      rw [(bump_fields _).1, advanceTime_id]
    · show (bump (advanceTime snap.elapsed e)).event = e.event
      rw [(bump_fields _).2.1, advanceTime_event]
    · show (bump (advanceTime snap.elapsed e)).handler = e.handler
      rw [(bump_fields _).2.2.1, advanceTime_handler]
    · rfl
    · show (bump (advanceTime snap.elapsed e)).fireCount = e.fireCount + 1
      rw [(bump_fields _).2.2.2.2, advanceTime_fireCount]
  rw [hAB]

/-- A `Delayed` entry whose remaining wait exceeds the tick's elapsed time
merely counts down. -/
theorem processEntry_delayed_nofire (scope : Scope) (snap : Snapshot)
    (e : EventData) (d0 : Nat) (hev : e.event = Event.Delayed d0)
    (hgt : snap.elapsed < e.remaining) :
    processEntry scope snap e = (some (advanceTime snap.elapsed e), false, false) := by
  apply processEntry_not_fireable
  rw [fireable_delayed scope snap _ d0 (by rw [advanceTime_event]; exact hev),
    advanceTime_remaining_delayed snap.elapsed e d0 hev]
  simp only [beq_eq_false_iff_ne, ne_eq]
  omega

/-- A `Delayed` entry whose remaining wait elapses during the tick fires
once and is removed (the handler returning `None`). -/
theorem processEntry_delayed_fire (scope : Scope) (snap : Snapshot)
    (e : EventData) (d0 : Nat) (hev : e.event = Event.Delayed d0)
    (hh : ∀ ctx, e.handler ctx = HandlerOutcome.ok none)
    (hle : e.remaining ≤ snap.elapsed) :
    processEntry scope snap e = (none, true, false) := by
  have hfire : fireable scope snap (advanceTime snap.elapsed e) = true := by
    rw [fireable_delayed scope snap _ d0 (by rw [advanceTime_event]; exact hev),
      advanceTime_remaining_delayed snap.elapsed e d0 hev]
    simp only [beq_iff_eq]
    omega
  rw [processEntry_fire_ok scope snap e none hfire (hh _)]
  have hbev : (bump (advanceTime snap.elapsed e)).event = Event.Delayed d0 := by
    rw [(bump_fields _).2.1, advanceTime_event, hev]
  rw [applyOverride_none_delayed _ d0 hbev]

/-- A removed entry never fires again (tick-number trace). -/
theorem entryTicks_none (scope : Scope) :
    ∀ (snaps : List Snapshot) (t : Nat), entryTicks scope none t snaps = [] := by
  intro snaps
  induction snaps with
  | nil => intro t; rfl
  | cons s ss ih =>
    intro t
    simp only [entryTicks, stepEntry]
    exact ih (t + 1)

/-- A removed entry stays removed. -/
theorem entryAfter_none (scope : Scope) :
    ∀ snaps : List Snapshot, entryAfter scope none snaps = none := by
  intro snaps
  induction snaps with
  | nil => rfl
  | cons s ss ih =>
    simp only [entryAfter, stepEntry]
    exact ih

/-- Key lemma for C3: a `Periodic(p, _)` entry whose handler always returns
`None` fires exactly at the cumulative instants `remaining`, `remaining + p`,
`remaining + 2p`, …, provided every such deadline is hit exactly by some
tick boundary. -/
theorem periodic_entry_instants (p : Nat) (hp : 0 < p) (scope : Scope) :
    ∀ (snaps : List Snapshot) (n : Nat) (e : EventData) (ph : Option Nat) (acc : Nat),
      e.event = Event.Periodic p ph →
      (∀ ctx, e.handler ctx = HandlerOutcome.ok none) →
      0 < e.remaining →
      (∀ k, k < n → ∃ i, i ≤ snaps.length ∧
        partialElapsed snaps i = e.remaining + k * p) →
      (entryInstants scope (some e) acc snaps).take n
        = (List.range n).map (fun k => acc + e.remaining + k * p) := by
  intro snaps
  induction snaps with
  | nil =>
    intro n e ph acc hev hh hrem halign
    cases n with
    | zero => rfl
    | succ m =>
      exfalso
      rcases halign 0 (Nat.succ_pos m) with ⟨i, hi, hsum⟩
      rw [partialElapsed_nil, Nat.zero_mul, Nat.add_zero] at hsum
      omega
  | cons s ss ih =>
    intro n e ph acc hev hh hrem halign
    cases n with
    | zero => rfl
    | succ m =>
      by_cases hd : e.remaining ≤ s.elapsed
      · have hproc := processEntry_periodic_fire scope s e p ph hev hh hd
        have hde : s.elapsed = e.remaining := by
          rcases halign 0 (Nat.succ_pos m) with ⟨i, hi, hsum⟩
          rw [Nat.zero_mul, Nat.add_zero] at hsum
          cases i with
          | zero => rw [partialElapsed_zero] at hsum; omega
          | succ j =>
            rw [partialElapsed_cons_succ] at hsum
            omega
        have halign2 : ∀ k, k < m → ∃ i, i ≤ ss.length ∧
            partialElapsed ss i = p + k * p := by
          intro k hk
          rcases halign (k + 1) (by omega) with ⟨i, hi, hsum⟩
          cases i with
          | zero =>
            exfalso
            rw [partialElapsed_zero] at hsum
            omega
          | succ j =>
            rw [partialElapsed_cons_succ] at hsum
            rw [Nat.succ_mul] at hsum
            refine ⟨j, by simp at hi; omega, ?_⟩
            omega
        have hihm := ih m { e with remaining := p, fireCount := e.fireCount + 1 }
          ph (acc + s.elapsed) hev hh hp halign2
        simp only [entryInstants, stepEntry, hproc]
        rw [if_pos trivial, List.take_succ_cons, List.range_succ_eq_map]
        simp only [List.map_cons, List.map_map]
        congr 1
        · rw [hde]
          simp
        · rw [hihm]
          apply List.map_congr_left
          intro k hk
          simp only [Function.comp_apply]
          rw [Nat.succ_mul, hde]
          omega
      · push_neg at hd
        have hproc := processEntry_periodic_nofire scope s e p ph hev hd
        have hadvev : (advanceTime s.elapsed e).event = Event.Periodic p ph := by
          rw [advanceTime_event]; exact hev
        have hadvrem : (advanceTime s.elapsed e).remaining
            = e.remaining - s.elapsed :=
          advanceTime_remaining_periodic _ _ _ _ hev
        have halign2 : ∀ k, k < m + 1 → ∃ i, i ≤ ss.length ∧
            partialElapsed ss i = (advanceTime s.elapsed e).remaining + k * p := by
          intro k hk
          rcases halign k hk with ⟨i, hi, hsum⟩
          cases i with
          | zero =>
            exfalso
            rw [partialElapsed_zero] at hsum
            omega
          | succ j =>
            rw [partialElapsed_cons_succ] at hsum
            refine ⟨j, by simp at hi; omega, ?_⟩
            rw [hadvrem]
            omega
        have hihm := ih (m + 1) (advanceTime s.elapsed e) ph (acc + s.elapsed)
          hadvev (fun ctx => by rw [advanceTime_handler]; exact hh ctx)
          (by rw [hadvrem]; omega) halign2
        simp only [entryInstants, stepEntry, hproc]
        rw [if_neg (by simp), hihm]
        apply List.map_congr_left
        intro k hk
        rw [hadvrem]
        omega

/-- C3: a `Periodic(p, phase)` entry whose handler always returns `None`
first fires once cumulative elapsed time reaches `phase` if present (else
`p`), and each successive fire instant is spaced by exactly `p` from the
previous one, for every tick sequence whose boundaries hit those deadlines
(the original phase is forgotten after the first fire). -/
theorem periodic_fires_on_schedule (reg : Registry) (x p : Nat)
    (ph : Option Nat) (e : EventData) (snaps : List Snapshot) (n : Nat)
    (hN : (reg.entries.map (fun e => e.id)).Nodup)
    (hfind : reg.findEntry x = some e)
    (hev : e.event = Event.Periodic p ph)
    (hrem : e.remaining = ph.getD p)
    (hh : ∀ ctx, e.handler ctx = HandlerOutcome.ok none)
    (hp : 0 < p) (hw : 0 < ph.getD p)
    (halign : ∀ k, k < n → ∃ i, i ≤ snaps.length ∧
      partialElapsed snaps i = ph.getD p + k * p) :
    (reg.fireInstants x snaps).take n
      = (List.range n).map (fun k => ph.getD p + k * p) := by
  unfold Registry.fireInstants
  rw [fireInstantsFrom_bridge x snaps reg 0 hN, hfind]
  rw [periodic_entry_instants p hp reg.scope snaps n e ph 0 hev hh
    (by omega) (by rw [hrem]; exact halign)]
  apply List.map_congr_left
  intro k hk
  rw [hrem]
  omega

/-- Witness for C3 at a concrete registry: a `Periodic(2, phase 1)` entry
over ticks of sizes 1, 2, 2 fires at cumulative instants 1, 3, 5. -/
theorem periodic_fires_on_schedule_witness :
    (regPeriodicFx.fireInstants 0 snapsPeriodicFx).take 3
      = (List.range 3).map (fun k => (some 1 : Option Nat).getD 2 + k * 2) :=
  periodic_fires_on_schedule regPeriodicFx 0 2 (some 1)
    (freshEntry (Event.Periodic 2 (some 1)) handlerNone 0) snapsPeriodicFx 3
    (by simp [regPeriodicFx]) rfl rfl rfl (fun _ => rfl) (by omega) (by simp)
    (by
      intro k hk
      interval_cases k
      · exact ⟨1, by decide, rfl⟩
      · exact ⟨2, by decide, rfl⟩
      · exact ⟨3, by decide, rfl⟩)

/-- Key lemma for C4: a `Delayed` entry whose handler returns `None` fires
exactly once, on the first tick at which the cumulative elapsed time reaches
its remaining wait, and is gone from every later state. -/
theorem delayed_entry_run (scope : Scope) :
    ∀ (snaps : List Snapshot) (e : EventData) (d0 t j : Nat),
      e.event = Event.Delayed d0 →
      (∀ ctx, e.handler ctx = HandlerOutcome.ok none) →
      j < snaps.length →
      e.remaining ≤ partialElapsed snaps (j + 1) →
      (∀ i, i < j → partialElapsed snaps (i + 1) < e.remaining) →
      entryTicks scope (some e) t snaps = [t + j] ∧
      (∀ m, j < m → m ≤ snaps.length →
        entryAfter scope (some e) (snaps.take m) = none) := by
  intro snaps
  induction snaps with
  | nil =>
    intro e d0 t j _ _ hjlen _ _
    exact absurd hjlen (Nat.not_lt_zero j)
  | cons s ss ih =>
    intro e d0 t j hev hh hjlen hjfire hjmin
    by_cases hd : e.remaining ≤ s.elapsed
    · have hj0 : j = 0 := by
        by_contra hj
        have h0 := hjmin 0 (by omega)
        rw [partialElapsed_cons_succ, partialElapsed_zero] at h0
        omega
      subst hj0
      have hproc := processEntry_delayed_fire scope s e d0 hev hh hd
      constructor
      · simp only [entryTicks, stepEntry, hproc]
        rw [if_pos trivial, entryTicks_none]
        simp
      · intro m hm hmlen
        cases m with
        | zero => omega
        | succ m2 =>
          rw [List.take_succ_cons]
          simp only [entryAfter, stepEntry, hproc]
          exact entryAfter_none scope _
    · push_neg at hd
      have hproc := processEntry_delayed_nofire scope s e d0 hev hd
      cases j with
      | zero =>
        exfalso
        rw [partialElapsed_cons_succ, partialElapsed_zero] at hjfire
        omega
      | succ j2 =>
        have hadvev : (advanceTime s.elapsed e).event = Event.Delayed d0 := by
          rw [advanceTime_event]; exact hev
        have hadvrem : (advanceTime s.elapsed e).remaining
            = e.remaining - s.elapsed :=
          advanceTime_remaining_delayed _ _ _ hev
        have hih := ih (advanceTime s.elapsed e) d0 (t + 1) j2 hadvev
          (fun ctx => by rw [advanceTime_handler]; exact hh ctx)
          (by simp at hjlen; omega)
          (by
            rw [partialElapsed_cons_succ] at hjfire
            rw [hadvrem]
            omega)
          (by
            intro i hi
            have h2 := hjmin (i + 1) (by omega)
            rw [partialElapsed_cons_succ] at h2
            rw [hadvrem]
            omega)
        constructor
        · simp only [entryTicks, stepEntry, hproc]
          rw [if_neg (by simp), hih.1]
          congr 1
          omega
        · intro m hm hmlen
          cases m with
          | zero => omega
          | succ m2 =>
            rw [List.take_succ_cons]
            simp only [entryAfter, stepEntry, hproc]
            exact hih.2 m2 (by omega) (by simp at hmlen; omega)

/-- C4: a `Delayed(d)` entry whose handler returns `None` fires exactly once
— on the first tick at which cumulative elapsed time is at least `d` — and
is absent from the registry on every tick thereafter. -/
theorem delayed_fires_exactly_once (reg : Registry) (x d0 : Nat)
    (e : EventData) (snaps : List Snapshot) (j : Nat)
    (hN : (reg.entries.map (fun e => e.id)).Nodup)
    (hfind : reg.findEntry x = some e)
    (hev : e.event = Event.Delayed d0)
    (hrem : e.remaining = d0)
    (hh : ∀ ctx, e.handler ctx = HandlerOutcome.ok none)
    (hjlen : j < snaps.length)
    (hjfire : d0 ≤ partialElapsed snaps (j + 1))
    (hjmin : ∀ i, i < j → partialElapsed snaps (i + 1) < d0) :
    reg.fireTicks x snaps = [1 + j] ∧
    (∀ m, j < m → m ≤ snaps.length →
      (reg.runTicks (snaps.take m)).findEntry x = none) := by
  have hkey := delayed_entry_run reg.scope snaps e d0 1 j hev hh hjlen
    (by rw [hrem]; exact hjfire) (fun i hi => by rw [hrem]; exact hjmin i hi)
  constructor
  · unfold Registry.fireTicks
    rw [fireTicksFrom_bridge x snaps reg 1 hN, hfind]
    exact hkey.1
  · intro m hm hmlen
    rw [findEntry_runTicks x (snaps.take m) reg hN, hfind]
    exact hkey.2 m hm hmlen

/-- Witness for C4 at a concrete registry: a `Delayed(5)` entry over ticks
of sizes 3, 3, 4 fires exactly on tick 2 (cumulative 6 ≥ 5) and is absent
afterwards. -/
theorem delayed_fires_exactly_once_witness :
    regDelayedFx.fireTicks 0 snapsDelayedFx = [1 + 1] ∧
    (∀ m, 1 < m → m ≤ snapsDelayedFx.length →
      (regDelayedFx.runTicks (snapsDelayedFx.take m)).findEntry 0 = none) :=
  delayed_fires_exactly_once regDelayedFx 0 5
    (freshEntry (Event.Delayed 5) handlerNone 0) snapsDelayedFx 1
    (by simp [regDelayedFx]) rfl rfl rfl (fun _ => rfl)
    (by decide) (by decide)
    (by
      intro i hi
      interval_cases i
      decide)

/-- C1: a `Core` descriptor registered on a local (track-scope) registry is
inert: the registration always succeeds and stores the entry, the entry is
still stored unchanged after every sequence of ticks and snapshots
(including any number of matching core-payload occurrences), its handler is
never invoked, and the excluding predicate `Event::is_global_only` holds on
the descriptor. -/
theorem core_on_local_registry_inert (reg : Registry) (c : CoreEvent)
    (h : Handler) (hscope : reg.scope = Scope.localScope)
    (hN : (reg.entries.map (fun e => e.id)).Nodup)
    (hfresh : ∀ e ∈ reg.entries, e.id ≠ reg.nextId) :
    ((reg.register (Event.Core c) h).1.findEntry (reg.register (Event.Core c) h).2
        = some (freshEntry (Event.Core c) h reg.nextId)) ∧
    (∀ snaps : List Snapshot,
      ((reg.register (Event.Core c) h).1.runTicks snaps).findEntry
          (reg.register (Event.Core c) h).2
        = some (freshEntry (Event.Core c) h reg.nextId) ∧
      (reg.register (Event.Core c) h).2 ∉
        (reg.register (Event.Core c) h).1.firedLog snaps) ∧
    (Event.Core c).is_global_only = true := by
  have hfind := register_findEntry reg (Event.Core c) h hfresh
  have hN2 := register_nodup reg (Event.Core c) h hN hfresh
  exact ⟨hfind,
    fun snaps => core_local_persists (reg.register (Event.Core c) h).2
      (freshEntry (Event.Core c) h reg.nextId) rfl snaps
      (reg.register (Event.Core c) h).1 hscope hN2 hfind,
    rfl⟩

/-- Witness for C1 at a concrete registry: registering a `Core` descriptor
on an empty local registry succeeds, persists and never fires. -/
theorem core_on_local_registry_inert_witness :
    ((regEmptyLocal.register (Event.Core CoreEvent.SpeakingStateChange) handlerNone).1.findEntry
        (regEmptyLocal.register (Event.Core CoreEvent.SpeakingStateChange) handlerNone).2
      = some (freshEntry (Event.Core CoreEvent.SpeakingStateChange) handlerNone
          regEmptyLocal.nextId)) ∧
    (∀ snaps : List Snapshot,
      ((regEmptyLocal.register (Event.Core CoreEvent.SpeakingStateChange) handlerNone).1.runTicks
          snaps).findEntry
          (regEmptyLocal.register (Event.Core CoreEvent.SpeakingStateChange) handlerNone).2
        = some (freshEntry (Event.Core CoreEvent.SpeakingStateChange) handlerNone
            regEmptyLocal.nextId) ∧
      (regEmptyLocal.register (Event.Core CoreEvent.SpeakingStateChange) handlerNone).2 ∉
        (regEmptyLocal.register (Event.Core CoreEvent.SpeakingStateChange) handlerNone).1.firedLog
          snaps) ∧
    (Event.Core CoreEvent.SpeakingStateChange).is_global_only = true :=
  core_on_local_registry_inert regEmptyLocal CoreEvent.SpeakingStateChange handlerNone
    rfl (by simp [regEmptyLocal]) (by simp [regEmptyLocal])

/-- C5: an entry of any descriptor kind whose handler invocation returns
`Some(Cancel)` fires this tick and is absent from the registry on the very
next tick; the removal does not depend on the entry's kind or prior
scheduling state. -/
theorem cancel_return_removes_entry (reg : Registry) (snap : Snapshot)
    (x : Nat) (e : EventData)
    (hN : (reg.entries.map (fun e => e.id)).Nodup)
    (hfind : reg.findEntry x = some e)
    (hfire : fireable reg.scope snap (advanceTime snap.elapsed e) = true)
    (hout : e.handler (mkCtx snap e) = .ok (some Event.Cancel)) :
    x ∈ reg.firedIds snap ∧ (reg.tick snap).findEntry x = none := by
  have hproc := processEntry_fire_ok reg.scope snap e (some Event.Cancel) hfire hout
  constructor
  · rw [mem_firedIds_iff reg snap x hN]
    exact ⟨e, hfind, by rw [hproc]⟩
  · rw [findEntry_tick reg snap x hN, hfind, Option.some_bind, hproc]
    rfl

/-- Witness for C5 at a concrete registry: a `Track(End)` entry whose
handler cancels itself is gone on the next tick. -/
theorem cancel_return_removes_entry_witness :
    0 ∈ regCancelFx.firedIds snapTrackEnd ∧
    (regCancelFx.tick snapTrackEnd).findEntry 0 = none :=
  cancel_return_removes_entry regCancelFx snapTrackEnd 0
    (freshEntry (Event.Track TrackEvent.End) handlerCancel 0)
    (by simp [regCancelFx]) rfl rfl rfl

end Songbird
